import Mathlib

/-!
Verification of the coordinatord persistence layer (`src/db/mod.rs`,
`src/db/schema.rs`).

The database tables are modelled as lists of rows in insertion order; every
byte string (txids, public keys, DER signatures, serialized transactions) is a
`List Nat`.  Each operation of `db/mod.rs` is embedded as a pure state
transformer over this table state, following the SQL statements it executes.

Modelled from the spec: `schema.rs` does not create the `spend_outpoints`
table used by `store_spend_tx`/`fetch_spend_tx`, and its `spend_txs` table has
no `txid` column; the shape of those tables and their unique constraints
((deposit_txid, deposit_vout) unique on spend_outpoints; txid and transaction
each unique on spend_txs) are taken from the spec's data model (§3, §9), which
is what the DML in `db/mod.rs` requires.  The DDL actually present in
`schema.rs` is modelled separately (`maybe_create_db` below).
-/

namespace Coordinatord

/-- Raw byte strings (these stand for Rust byte slices / `Vec<u8>`). -/
abbrev Bytes := List Nat

/-- A Bitcoin outpoint: 32-byte txid plus a `u32` output index.  The `vout`
field is a `Nat`; the `u32` bound `vout < 2^32` is carried as a hypothesis
where it matters. -/
structure OutPoint where
  txid : Bytes
  vout : Nat
deriving DecidableEq

/-- A row of the `signatures` table: `(txid, pubkey, signature)`, all BYTEA. -/
structure SigRow where
  txid : Bytes
  pubkey : Bytes
  signature : Bytes
deriving DecidableEq

/-- A row of the `spend_txs` table as used by the DML in `db/mod.rs`:
`(txid, transaction)`, both BYTEA. -/
structure SpendTxRow where
  txid : Bytes
  tx : Bytes
deriving DecidableEq

/-- A row of the `spend_outpoints` table:
`(deposit_txid, deposit_vout, spend_txid)`.  `deposit_vout` is the stored
4-byte signed integer (Postgres INT4), hence `Int`. -/
structure OutpointRow where
  deposit_txid : Bytes
  deposit_vout : Int
  spend_txid : Bytes
deriving DecidableEq

/-- The persistent state: the three tables touched by the DML, each a list of
rows in insertion order. -/
structure DbState where
  signatures : List SigRow
  spend_txs : List SpendTxRow
  spend_outpoints : List OutpointRow
deriving DecidableEq

def emptyDb : DbState := ⟨[], [], []⟩

/-- The error type of `db/mod.rs` (`DbError`).  The Postgres payload is
dropped. -/
inductive DbError where
  | Postgres
  | Duplicate
deriving DecidableEq

/-- Embedding of the Rust cast `outpoint.vout as i32`: the `u32` value is
reinterpreted as a two's-complement 32-bit signed integer (wrapping).  The
`% 2^32` makes the function total on `Nat`; a real `vout` is below `2^32`. -/
def voutToI32 (v : Nat) : Int :=
  if v % 4294967296 < 2147483648 then ((v % 4294967296 : Nat) : Int)
  else ((v % 4294967296 : Nat) : Int) - 4294967296

/-- The WHERE clause `deposit_txid = $1 AND deposit_vout = $2` used both by
the upsert's conflict target and by the fetch join. -/
abbrev rowKeyIs (r : OutpointRow) (dt : Bytes) (dv : Int) : Prop :=
  r.deposit_txid = dt ∧ r.deposit_vout = dv

/-- Embedding of `store_sig`: first `SELECT signature FROM signatures WHERE
signature = $1`; a non-empty result fails with `Duplicate` and no insert,
otherwise `INSERT INTO signatures (txid, pubkey, signature)` appends a row. -/
def store_sig (s : DbState) (txid pubkey sig : Bytes) : Except DbError DbState :=
  if (s.signatures.filter (fun r => r.signature = sig)).isEmpty then
    .ok { s with signatures := s.signatures ++ [⟨txid, pubkey, sig⟩] }
  else
    .error .Duplicate

/-- Insertion into an association list sorted by the lexicographic order on
the key bytes; an equal key's value is replaced.  This embeds
`BTreeMap::insert` (the map of `fetch_sigs` is a `BTreeMap<PublicKey,
Signature>`, ordered by the key's serialized bytes). -/
def insertSorted (k v : Bytes) : List (Bytes × Bytes) → List (Bytes × Bytes)
  | [] => [(k, v)]
  | (k0, v0) :: rest =>
    if k < k0 then (k, v) :: (k0, v0) :: rest
    else if k = k0 then (k, v) :: rest
    else (k0, v0) :: insertSorted k v rest

/-- Lookup in the association list produced by `insertSorted`. -/
def lookupKey (k : Bytes) : List (Bytes × Bytes) → Option Bytes
  | [] => none
  | (k0, v) :: rest => if k0 = k then some v else lookupKey k rest

/-- Embedding of `fetch_sigs`: `SELECT pubkey, signature FROM signatures WHERE
txid = $1`, the rows (in table order) folded into the ordered map with
`insert` — a duplicate public key silently overwrites (last processed row
wins). -/
def fetch_sigs (s : DbState) (txid : Bytes) : List (Bytes × Bytes) :=
  (s.signatures.filter (fun r => r.txid = txid)).foldl
    (fun m r => insertSorted r.pubkey r.signature m) []

/-- The statements executed inside the database transaction of
`store_spend_tx`. -/
inductive Stmt where
  | insertSpendTx (txid tx : Bytes)
  | upsertOutpoint (deposit_txid : Bytes) (deposit_vout : Int) (spend_txid : Bytes)
deriving DecidableEq

/-- The table a statement writes to. -/
def Stmt.table : Stmt → String
  | .insertSpendTx _ _ => "spend_txs"
  | .upsertOutpoint _ _ _ => "spend_outpoints"

/-- The columns a statement inserts into. -/
def Stmt.columns : Stmt → List String
  | .insertSpendTx _ _ => ["txid", "transaction"]
  | .upsertOutpoint _ _ _ => ["deposit_txid", "deposit_vout", "spend_txid"]

/-- One statement's effect on the state.

`insertSpendTx` embeds `INSERT INTO spend_txs (txid, transaction) VALUES
($1, $2) ON CONFLICT DO NOTHING`: the insert is silently skipped when it
conflicts with an existing row on either unique column (txid or transaction
bytes).

`upsertOutpoint` embeds `INSERT INTO spend_outpoints ... ON CONFLICT
(deposit_txid, deposit_vout) DO UPDATE SET ...`: when a row with the same
(deposit_txid, deposit_vout) key exists, that row is rewritten to the new
values, otherwise a new row is appended. -/
def execStmt (s : DbState) : Stmt → DbState
  | .insertSpendTx txid tx =>
    if ∃ r ∈ s.spend_txs, r.txid = txid ∨ r.tx = tx then s
    else { s with spend_txs := s.spend_txs ++ [⟨txid, tx⟩] }
  | .upsertOutpoint dt dv st =>
    if ∃ r ∈ s.spend_outpoints, rowKeyIs r dt dv then
      { s with spend_outpoints :=
        s.spend_outpoints.map (fun r => if rowKeyIs r dt dv then ⟨dt, dv, st⟩ else r) }
    else
      { s with spend_outpoints := s.spend_outpoints ++ [⟨dt, dv, st⟩] }

/-- The statement sequence of `store_spend_tx`: first the spend-transaction
insert with `txid = serialize(transaction.txid())`, then one upsert per
outpoint, in order, each recording `(outpoint.txid, outpoint.vout as i32)
↦ txid`.  `txidOf` stands for the external hash
`serialize(transaction.txid())` as a function of the serialized transaction
bytes. -/
def storeSpendTxStmts (txidOf : Bytes → Bytes) (outpoints : List OutPoint) (tx : Bytes) :
    List Stmt :=
  .insertSpendTx (txidOf tx) tx ::
    outpoints.map (fun op => .upsertOutpoint op.txid (voutToI32 op.vout) (txidOf tx))

/-- Embedding of `store_spend_tx` on the success path: all statements of the
transaction applied in order, then committed. -/
def store_spend_tx (txidOf : Bytes → Bytes) (s : DbState) (outpoints : List OutPoint)
    (tx : Bytes) : DbState :=
  (storeSpendTxStmts txidOf outpoints tx).foldl execStmt s

/-- Execution of a statement list inside one database transaction, with a
failure oracle: `oracle i = true` means the i-th statement (or, past the end,
the final COMMIT) fails.  On any failure the transaction rolls back and the
caller observes the original state (`orig`) with a failure flag; otherwise the
accumulated state is committed. -/
def runTx (oracle : Nat → Bool) (orig : DbState) : Nat → DbState → List Stmt → DbState × Bool
  | i, cur, [] => if oracle i then (orig, false) else (cur, true)
  | i, cur, st :: rest =>
    if oracle i then (orig, false) else runTx oracle orig (i + 1) (execStmt cur st) rest

/-- `store_spend_tx` with a failure oracle: the whole statement sequence runs
inside one transaction against the backing store. -/
def runStoreTx (oracle : Nat → Bool) (txidOf : Bytes → Bytes) (s : DbState)
    (outpoints : List OutPoint) (tx : Bytes) : DbState × Bool :=
  runTx oracle s 0 s (storeSpendTxStmts txidOf outpoints tx)

/-- Embedding of `fetch_spend_tx`: `SELECT transaction FROM spend_txs txs
INNER JOIN spend_outpoints ops ON txs.txid = ops.spend_txid WHERE
ops.deposit_txid = $1 AND ops.deposit_vout = $2`, taking the first result row
(`.get(0)`), or `none` when the result set is empty. -/
def fetch_spend_tx (s : DbState) (op : OutPoint) : Option Bytes :=
  (s.spend_txs.flatMap (fun t =>
    s.spend_outpoints.filterMap (fun r =>
      if t.txid = r.spend_txid ∧ rowKeyIs r op.txid (voutToI32 op.vout)
      then some t.tx else none))).head?

/-! Section: The DDL of `schema.rs` -/

/-- A store at the schema level: existing table names with their (opaque)
rows. -/
abbrev SchemaStore := List (String × List Bytes)

/-- The tables that `SCHEMA` in `schema.rs` creates, in order. -/
def schemaTables : List String := ["version", "signatures", "spend_txs"]

/-- The columns each `CREATE TABLE` statement of `SCHEMA` declares. -/
def schemaColumns : String → List String
  | "version" => ["version"]
  | "signatures" => ["txid", "pubkey", "signature"]
  | "spend_txs" => ["deposit_txid", "deposit_vout", "transaction"]
  | _ => []

/-- `CREATE TABLE IF NOT EXISTS`: a present table (and its rows) is left
untouched, an absent one is created empty. -/
def createIfNotExists (st : SchemaStore) (name : String) : SchemaStore :=
  if st.any (fun t => t.1 = name) then st else st ++ [(name, [])]

/-- Embedding of `maybe_create_db`: `batch_execute(SCHEMA)`, i.e. the three
`CREATE TABLE IF NOT EXISTS` statements in order. -/
def maybe_create_db (st : SchemaStore) : SchemaStore :=
  schemaTables.foldl createIfNotExists st

/-! Section: Well-formedness of reachable database states -/

/-- Invariants of states reachable through this layer: every `spend_txs` row's
txid column holds the hash of its transaction column, the unique constraint on
`spend_txs.txid` holds, and the unique constraint on
`spend_outpoints (deposit_txid, deposit_vout)` holds. -/
abbrev dbWf (txidOf : Bytes → Bytes) (s : DbState) : Prop :=
  (∀ r ∈ s.spend_txs, r.txid = txidOf r.tx) ∧
  s.spend_txs.Pairwise (fun a b => a.txid ≠ b.txid) ∧
  s.spend_outpoints.Pairwise
    (fun a b => ¬(a.deposit_txid = b.deposit_txid ∧ a.deposit_vout = b.deposit_vout))

theorem dbWf_empty (txidOf : Bytes → Bytes) : dbWf txidOf emptyDb :=
  ⟨fun r h => absurd h (List.not_mem_nil r), List.Pairwise.nil, List.Pairwise.nil⟩

/-! Section: Statement-level lemmas -/

theorem execStmt_upsert_spend_txs (s : DbState) (dt : Bytes) (dv : Int) (st : Bytes) :
    (execStmt s (.upsertOutpoint dt dv st)).spend_txs = s.spend_txs := by
  simp only [execStmt]; split <;> rfl

theorem execStmt_insert_outpoints (s : DbState) (txid tx : Bytes) :
    (execStmt s (.insertSpendTx txid tx)).spend_outpoints = s.spend_outpoints := by
  simp only [execStmt]; split <;> rfl

/-- After an upsert, some row carries the key `(dt, dv)`, and every row
carrying it is exactly the upserted row. -/
def opRowFixed (dt : Bytes) (dv : Int) (st : Bytes) (s : DbState) : Prop :=
  (∃ r ∈ s.spend_outpoints, rowKeyIs r dt dv) ∧
  (∀ r ∈ s.spend_outpoints, rowKeyIs r dt dv → r = ⟨dt, dv, st⟩)

theorem upsert_fixes (s : DbState) (dt : Bytes) (dv : Int) (st : Bytes) :
    opRowFixed dt dv st (execStmt s (.upsertOutpoint dt dv st)) := by
  simp only [execStmt]
  split
  · rename_i h
    obtain ⟨r0, hr0, hk0⟩ := h
    constructor
    · refine ⟨⟨dt, dv, st⟩, ?_, rfl, rfl⟩
      exact List.mem_map.2 ⟨r0, hr0, by rw [if_pos hk0]⟩
    · intro r hr hk
      obtain ⟨a, _, hfa⟩ := List.mem_map.1 hr
      by_cases hka : rowKeyIs a dt dv
      · rw [if_pos hka] at hfa; exact hfa.symm
      · rw [if_neg hka] at hfa; exact absurd (hfa ▸ hk) hka
  · constructor
    · exact ⟨⟨dt, dv, st⟩, List.mem_append.2 (Or.inr (List.mem_singleton.2 rfl)), rfl, rfl⟩
    · intro r hr hk
      rename_i hno
      rcases List.mem_append.1 hr with hl | hsing
      · exact absurd ⟨r, hl, hk⟩ hno
      · exact List.mem_singleton.1 hsing

theorem upsert_preserves_fixed (s : DbState) (dt dt' : Bytes) (dv dv' : Int) (st : Bytes)
    (h : opRowFixed dt dv st s) :
    opRowFixed dt dv st (execStmt s (.upsertOutpoint dt' dv' st)) := by
  simp only [execStmt]
  split
  · constructor
    · obtain ⟨r0, hr0, hk0⟩ := h.1
      have hr0fix := h.2 r0 hr0 hk0
      by_cases hka : rowKeyIs r0 dt' dv'
      · refine ⟨⟨dt', dv', st⟩, List.mem_map.2 ⟨r0, hr0, by rw [if_pos hka]⟩, ?_, ?_⟩
        · rw [← hka.1, hk0.1]
        · rw [← hka.2, hk0.2]
      · exact ⟨r0, List.mem_map.2 ⟨r0, hr0, by rw [if_neg hka]⟩, hk0⟩
    · intro r hr hk
      obtain ⟨a, ha, hfa⟩ := List.mem_map.1 hr
      by_cases hka : rowKeyIs a dt' dv'
      · rw [if_pos hka] at hfa
        have h1 : dt' = dt := by rw [← hk.1, ← hfa]
        have h2 : dv' = dv := by rw [← hk.2, ← hfa]
        rw [← hfa, h1, h2]
      · rw [if_neg hka] at hfa
        subst hfa
        exact h.2 a ha hk
  · constructor
    · obtain ⟨r0, hr0, hk0⟩ := h.1
      exact ⟨r0, List.mem_append.2 (Or.inl hr0), hk0⟩
    · intro r hr hk
      rcases List.mem_append.1 hr with hl | hsing
      · exact h.2 r hl hk
      · have := List.mem_singleton.1 hsing
        subst this
        have h1 : dt' = dt := hk.1
        have h2 : dv' = dv := hk.2
        rw [h1, h2]

theorem upsert_of_fixed (s : DbState) (dt : Bytes) (dv : Int) (st : Bytes)
    (h : opRowFixed dt dv st s) :
    execStmt s (.upsertOutpoint dt dv st) = s := by
  simp only [execStmt]
  rw [if_pos h.1]
  have hfun : ∀ a ∈ s.spend_outpoints,
      (if rowKeyIs a dt dv then (⟨dt, dv, st⟩ : OutpointRow) else a) = id a := by
    intro a ha
    by_cases hka : rowKeyIs a dt dv
    · rw [if_pos hka]; exact (h.2 a ha hka).symm
    · rw [if_neg hka]; rfl
  rw [List.map_congr_left hfun, List.map_id]

theorem upsert_outpoints_sub (s : DbState) (dt : Bytes) (dv : Int) (st : Bytes) :
    ∀ r ∈ (execStmt s (.upsertOutpoint dt dv st)).spend_outpoints,
      r ∈ s.spend_outpoints ∨ rowKeyIs r dt dv := by
  simp only [execStmt]
  split
  · intro r hr
    obtain ⟨a, ha, hfa⟩ := List.mem_map.1 hr
    by_cases hka : rowKeyIs a dt dv
    · rw [if_pos hka] at hfa; right; rw [← hfa]; exact ⟨rfl, rfl⟩
    · rw [if_neg hka] at hfa; left; rw [← hfa]; exact ha
  · intro r hr
    rcases List.mem_append.1 hr with hl | hsing
    · exact Or.inl hl
    · right; rw [List.mem_singleton.1 hsing]; exact ⟨rfl, rfl⟩

theorem upsert_pairwise (s : DbState) (dt : Bytes) (dv : Int) (st : Bytes)
    (h : s.spend_outpoints.Pairwise
      (fun a b => ¬(a.deposit_txid = b.deposit_txid ∧ a.deposit_vout = b.deposit_vout))) :
    (execStmt s (.upsertOutpoint dt dv st)).spend_outpoints.Pairwise
      (fun a b => ¬(a.deposit_txid = b.deposit_txid ∧ a.deposit_vout = b.deposit_vout)) := by
  simp only [execStmt]
  split
  · rw [List.pairwise_map]
    refine h.imp ?_
    intro a b hab hc
    apply hab
    have hkey : ∀ r : OutpointRow,
        ((if rowKeyIs r dt dv then (⟨dt, dv, st⟩ : OutpointRow) else r).deposit_txid
          = r.deposit_txid ∧
         (if rowKeyIs r dt dv then (⟨dt, dv, st⟩ : OutpointRow) else r).deposit_vout
          = r.deposit_vout) := by
      intro r
      by_cases hk : rowKeyIs r dt dv
      · rw [if_pos hk]; exact ⟨hk.1.symm, hk.2.symm⟩
      · rw [if_neg hk]; exact ⟨rfl, rfl⟩
    exact ⟨by rw [← (hkey a).1, ← (hkey b).1]; exact hc.1,
           by rw [← (hkey a).2, ← (hkey b).2]; exact hc.2⟩
  · rename_i hno
    rw [List.pairwise_append]
    refine ⟨h, List.pairwise_singleton _ _, ?_⟩
    intro a ha b hb
    rw [List.mem_singleton.1 hb]
    intro hc
    exact hno ⟨a, ha, hc.1, hc.2⟩

/-! Section: Folding the upserts of one `store_spend_tx` call -/

theorem foldl_upserts_fixed_preserved (st : Bytes) (ops : List OutPoint) (dt : Bytes)
    (dv : Int) :
    ∀ s : DbState, opRowFixed dt dv st s →
      opRowFixed dt dv st
        ((ops.map (fun op => Stmt.upsertOutpoint op.txid (voutToI32 op.vout) st)).foldl
          execStmt s) := by
  induction ops with
  | nil => intro s h; exact h
  | cons a rest ih =>
    intro s h
    simp only [List.map_cons, List.foldl_cons]
    exact ih _ (upsert_preserves_fixed s _ _ _ _ st h)

theorem foldl_upserts_fixed (st : Bytes) (ops : List OutPoint) (o : OutPoint)
    (ho : o ∈ ops) :
    ∀ s : DbState, opRowFixed o.txid (voutToI32 o.vout) st
      ((ops.map (fun op => Stmt.upsertOutpoint op.txid (voutToI32 op.vout) st)).foldl
        execStmt s) := by
  induction ops with
  | nil => cases ho
  | cons a rest ih =>
    intro s
    simp only [List.map_cons, List.foldl_cons]
    rcases List.mem_cons.1 ho with rfl | hmem
    · exact foldl_upserts_fixed_preserved st rest _ _ _ (upsert_fixes s _ _ st)
    · exact ih hmem _

theorem foldl_upserts_eq_of_fixed (st : Bytes) (ops : List OutPoint) :
    ∀ s : DbState, (∀ o ∈ ops, opRowFixed o.txid (voutToI32 o.vout) st s) →
      (ops.map (fun op => Stmt.upsertOutpoint op.txid (voutToI32 op.vout) st)).foldl
        execStmt s = s := by
  induction ops with
  | nil => intro s _; rfl
  | cons a rest ih =>
    intro s h
    simp only [List.map_cons, List.foldl_cons]
    rw [upsert_of_fixed s _ _ st (h a (List.mem_cons_self a rest))]
    exact ih s (fun o ho => h o (List.mem_cons_of_mem a ho))

theorem foldl_upserts_spend_txs (st : Bytes) (ops : List OutPoint) :
    ∀ s : DbState,
      ((ops.map (fun op => Stmt.upsertOutpoint op.txid (voutToI32 op.vout) st)).foldl
        execStmt s).spend_txs = s.spend_txs := by
  induction ops with
  | nil => intro s; rfl
  | cons a rest ih =>
    intro s
    simp only [List.map_cons, List.foldl_cons]
    rw [ih, execStmt_upsert_spend_txs]

theorem foldl_upserts_outpoints_sub (st : Bytes) (ops : List OutPoint) :
    ∀ s : DbState, ∀ r ∈
      ((ops.map (fun op => Stmt.upsertOutpoint op.txid (voutToI32 op.vout) st)).foldl
        execStmt s).spend_outpoints,
      r ∈ s.spend_outpoints ∨ ∃ o ∈ ops, rowKeyIs r o.txid (voutToI32 o.vout) := by
  induction ops with
  | nil => intro s r hr; exact Or.inl hr
  | cons a rest ih =>
    intro s r hr
    simp only [List.map_cons, List.foldl_cons] at hr
    rcases ih _ r hr with hmem | ⟨o, ho, hk⟩
    · rcases upsert_outpoints_sub s _ _ st r hmem with hmem2 | hk
      · exact Or.inl hmem2
      · exact Or.inr ⟨a, List.mem_cons_self a rest, hk⟩
    · exact Or.inr ⟨o, List.mem_cons_of_mem a ho, hk⟩

theorem foldl_upserts_pairwise (st : Bytes) (ops : List OutPoint) :
    ∀ s : DbState, s.spend_outpoints.Pairwise
      (fun a b => ¬(a.deposit_txid = b.deposit_txid ∧ a.deposit_vout = b.deposit_vout)) →
      ((ops.map (fun op => Stmt.upsertOutpoint op.txid (voutToI32 op.vout) st)).foldl
        execStmt s).spend_outpoints.Pairwise
        (fun a b => ¬(a.deposit_txid = b.deposit_txid ∧ a.deposit_vout = b.deposit_vout)) := by
  induction ops with
  | nil => intro s h; exact h
  | cons a rest ih =>
    intro s h
    simp only [List.map_cons, List.foldl_cons]
    exact ih _ (upsert_pairwise s _ _ st h)

/-! Section: The spend-transaction insert -/

theorem insert_spend_tx_skip (s : DbState) (txid tx : Bytes)
    (h : ∃ r ∈ s.spend_txs, r.txid = txid ∨ r.tx = tx) :
    execStmt s (.insertSpendTx txid tx) = s := by
  simp only [execStmt]; rw [if_pos h]

theorem insert_spend_tx_conflict_mem (s : DbState) (txid tx : Bytes) :
    ∃ r ∈ (execStmt s (.insertSpendTx txid tx)).spend_txs, r.txid = txid ∨ r.tx = tx := by
  simp only [execStmt]
  split
  · assumption
  · exact ⟨⟨txid, tx⟩, List.mem_append.2 (Or.inr (List.mem_singleton.2 rfl)), Or.inl rfl⟩

theorem insert_spend_tx_mem (txidOf : Bytes → Bytes) (s : DbState) (tx : Bytes)
    (hconsist : ∀ r ∈ s.spend_txs, r.txid = txidOf r.tx)
    (hinj : Function.Injective txidOf) :
    ∃ t ∈ (execStmt s (.insertSpendTx (txidOf tx) tx)).spend_txs,
      t.txid = txidOf tx ∧ t.tx = tx := by
  simp only [execStmt]
  split
  · rename_i h
    obtain ⟨r, hr, hcase⟩ := h
    have hc := hconsist r hr
    rcases hcase with htxid | htx
    · have htxeq : r.tx = tx := hinj (by rw [← hc]; exact htxid)
      exact ⟨r, hr, htxid, htxeq⟩
    · exact ⟨r, hr, by rw [hc, htx], htx⟩
  · exact ⟨⟨txidOf tx, tx⟩, List.mem_append.2 (Or.inr (List.mem_singleton.2 rfl)), rfl, rfl⟩

theorem insert_spend_tx_pairwise (s : DbState) (txid tx : Bytes)
    (h : s.spend_txs.Pairwise (fun a b => a.txid ≠ b.txid)) :
    (execStmt s (.insertSpendTx txid tx)).spend_txs.Pairwise
      (fun a b => a.txid ≠ b.txid) := by
  simp only [execStmt]
  split
  · exact h
  · rename_i hno
    rw [List.pairwise_append]
    refine ⟨h, List.pairwise_singleton _ _, ?_⟩
    intro a ha b hb
    rw [List.mem_singleton.1 hb]
    intro he
    exact hno ⟨a, ha, Or.inl he⟩

theorem insert_spend_tx_consist (txidOf : Bytes → Bytes) (s : DbState) (tx : Bytes)
    (h : ∀ r ∈ s.spend_txs, r.txid = txidOf r.tx) :
    ∀ r ∈ (execStmt s (.insertSpendTx (txidOf tx) tx)).spend_txs, r.txid = txidOf r.tx := by
  simp only [execStmt]
  split
  · exact h
  · intro r hr
    rcases List.mem_append.1 hr with hl | hsing
    · exact h r hl
    · rw [List.mem_singleton.1 hsing]

/-! Section: The fetch join -/

theorem filterMap_join_nil (l : List OutpointRow) (t : SpendTxRow) (dt : Bytes) (dv : Int)
    (h : ∀ r ∈ l, ¬ rowKeyIs r dt dv) :
    l.filterMap (fun r =>
      if t.txid = r.spend_txid ∧ rowKeyIs r dt dv then some t.tx else none) = [] := by
  rw [List.filterMap_eq_nil_iff]
  intro r hr
  rw [if_neg (fun hc => h r hr hc.2)]

theorem filterMap_join_unique (l : List OutpointRow) (t : SpendTxRow) (dt : Bytes) (dv : Int)
    (r0 : OutpointRow)
    (hpw : l.Pairwise
      (fun a b => ¬(a.deposit_txid = b.deposit_txid ∧ a.deposit_vout = b.deposit_vout)))
    (hr0 : r0 ∈ l) (hk : rowKeyIs r0 dt dv) :
    l.filterMap (fun r =>
      if t.txid = r.spend_txid ∧ rowKeyIs r dt dv then some t.tx else none) =
      if t.txid = r0.spend_txid then [t.tx] else [] := by
  induction l with
  | nil => cases hr0
  | cons a rest ih =>
    rw [List.pairwise_cons] at hpw
    rcases List.mem_cons.1 hr0 with rfl | hmem
    · have hrest : ∀ r ∈ rest, ¬ rowKeyIs r dt dv := by
        intro r hr hkr
        exact hpw.1 r hr ⟨by rw [hk.1, hkr.1], by rw [hk.2, hkr.2]⟩
      rw [List.filterMap_cons]
      by_cases ht : t.txid = r0.spend_txid
      · rw [if_pos ⟨ht, hk⟩]
        rw [filterMap_join_nil rest t dt dv hrest, if_pos ht]
      · rw [if_neg (fun hc => ht hc.1)]
        rw [filterMap_join_nil rest t dt dv hrest, if_neg ht]
    · have hka : ¬ rowKeyIs a dt dv := by
        intro hka
        exact hpw.1 r0 hmem ⟨by rw [hka.1, hk.1], by rw [hka.2, hk.2]⟩
      rw [List.filterMap_cons, if_neg (fun hc => hka hc.2)]
      exact ih hpw.2 hmem

theorem fetch_spend_tx_eq_none (s : DbState) (op : OutPoint)
    (h : ∀ r ∈ s.spend_outpoints, ¬ rowKeyIs r op.txid (voutToI32 op.vout)) :
    fetch_spend_tx s op = none := by
  unfold fetch_spend_tx
  rw [List.head?_eq_none_iff, List.flatMap_eq_nil_iff]
  intro t _
  exact filterMap_join_nil s.spend_outpoints t op.txid (voutToI32 op.vout) h

theorem fetch_spend_tx_eq_some (s : DbState) (op : OutPoint) (r0 : OutpointRow)
    (t0 : SpendTxRow)
    (hpwo : s.spend_outpoints.Pairwise
      (fun a b => ¬(a.deposit_txid = b.deposit_txid ∧ a.deposit_vout = b.deposit_vout)))
    (hpwt : s.spend_txs.Pairwise (fun a b => a.txid ≠ b.txid))
    (hr0 : r0 ∈ s.spend_outpoints) (hk : rowKeyIs r0 op.txid (voutToI32 op.vout))
    (ht0 : t0 ∈ s.spend_txs) (htt : t0.txid = r0.spend_txid) :
    fetch_spend_tx s op = some t0.tx := by
  unfold fetch_spend_tx
  suffices h : ∀ lt : List SpendTxRow, lt.Pairwise (fun a b => a.txid ≠ b.txid) → t0 ∈ lt →
      (lt.flatMap (fun t => s.spend_outpoints.filterMap (fun r =>
        if t.txid = r.spend_txid ∧ rowKeyIs r op.txid (voutToI32 op.vout)
        then some t.tx else none))).head? = some t0.tx by
    exact h s.spend_txs hpwt ht0
  intro lt
  induction lt with
  | nil => intro _ hmem; cases hmem
  | cons t rest ih =>
    intro hpw hmem
    rw [List.pairwise_cons] at hpw
    rw [List.flatMap_cons,
      filterMap_join_unique s.spend_outpoints t op.txid (voutToI32 op.vout) r0 hpwo hr0 hk]
    rcases List.mem_cons.1 hmem with rfl | hmem2
    · rw [if_pos htt]
      rfl
    · have hne : t.txid ≠ t0.txid := hpw.1 t0 hmem2
      rw [if_neg (fun hc => hne (by rw [hc, htt]))]
      rw [List.nil_append]
      exact ih hpw.2 hmem2

/-! Section: The `u32 as i32` cast -/

theorem voutToI32_inj_on (v w : Nat) (hv : v < 4294967296) (hw : w < 4294967296) :
    voutToI32 v = voutToI32 w ↔ v = w := by
  unfold voutToI32
  rw [Nat.mod_eq_of_lt hv, Nat.mod_eq_of_lt hw]
  constructor
  · intro h; split_ifs at h <;> omega
  · intro h; subst h; rfl

theorem voutToI32_neg (v : Nat) (h1 : 2147483648 ≤ v) (h2 : v < 4294967296) :
    voutToI32 v < 0 := by
  unfold voutToI32
  rw [Nat.mod_eq_of_lt h2, if_neg (by omega)]
  omega

/-! Section: Transactional execution -/

theorem runTx_cases (oracle : Nat → Bool) (orig : DbState) (stmts : List Stmt) :
    ∀ (i : Nat) (cur : DbState),
      runTx oracle orig i cur stmts = (stmts.foldl execStmt cur, true) ∨
      runTx oracle orig i cur stmts = (orig, false) := by
  induction stmts with
  | nil =>
    intro i cur
    simp only [runTx, List.foldl_nil]
    by_cases h : oracle i = true
    · rw [if_pos h]; exact Or.inr rfl
    · rw [if_neg h]; exact Or.inl rfl
  | cons st rest ih =>
    intro i cur
    simp only [runTx, List.foldl_cons]
    by_cases h : oracle i = true
    · rw [if_pos h]; exact Or.inr rfl
    · rw [if_neg h]; exact ih (i + 1) (execStmt cur st)

/-! Section: `store_spend_tx` assembled -/

theorem store_spend_tx_eq (txidOf : Bytes → Bytes) (s : DbState) (ops : List OutPoint)
    (tx : Bytes) :
    store_spend_tx txidOf s ops tx =
      (ops.map (fun op => Stmt.upsertOutpoint op.txid (voutToI32 op.vout) (txidOf tx))).foldl
        execStmt (execStmt s (.insertSpendTx (txidOf tx) tx)) := rfl

theorem store_spend_tx_preserves_wf (txidOf : Bytes → Bytes) (s : DbState)
    (hwf : dbWf txidOf s) (ops : List OutPoint) (tx : Bytes) :
    dbWf txidOf (store_spend_tx txidOf s ops tx) := by
  obtain ⟨hcons, hpwt, hpwo⟩ := hwf
  rw [store_spend_tx_eq]
  refine ⟨?_, ?_, ?_⟩
  · rw [foldl_upserts_spend_txs]
    exact insert_spend_tx_consist txidOf s tx hcons
  · rw [foldl_upserts_spend_txs]
    exact insert_spend_tx_pairwise s _ tx hpwt
  · apply foldl_upserts_pairwise
    rw [execStmt_insert_outpoints]
    exact hpwo

theorem fetch_store_mem (txidOf : Bytes → Bytes) (hinj : Function.Injective txidOf)
    (s : DbState) (hwf : dbWf txidOf s) (ops : List OutPoint) (tx : Bytes)
    (o : OutPoint) (ho : o ∈ ops) :
    fetch_spend_tx (store_spend_tx txidOf s ops tx) o = some tx := by
  obtain ⟨hcons, hpwt, hpwo⟩ := hwf
  obtain ⟨t0, ht0, ht0txid, ht0tx⟩ := insert_spend_tx_mem txidOf s tx hcons hinj
  have hfix := foldl_upserts_fixed (txidOf tx) ops o ho
    (execStmt s (.insertSpendTx (txidOf tx) tx))
  obtain ⟨⟨r0, hr0, hk0⟩, hall⟩ := hfix
  have hr0eq := hall r0 hr0 hk0
  rw [store_spend_tx_eq]
  have := fetch_spend_tx_eq_some _ o r0 t0
    (by
      apply foldl_upserts_pairwise
      rw [execStmt_insert_outpoints]
      exact hpwo)
    (by
      rw [foldl_upserts_spend_txs]
      exact insert_spend_tx_pairwise s _ tx hpwt)
    hr0 hk0
    (by rw [foldl_upserts_spend_txs]; exact ht0)
    (by rw [hr0eq, ht0txid])
  rw [this, ht0tx]

theorem fetch_store_not_mem (txidOf : Bytes → Bytes) (s : DbState) (ops : List OutPoint)
    (tx : Bytes) (o : OutPoint)
    (hnew : ∀ r ∈ s.spend_outpoints, ¬ rowKeyIs r o.txid (voutToI32 o.vout))
    (hkeys : ∀ op ∈ ops, ¬(op.txid = o.txid ∧ voutToI32 op.vout = voutToI32 o.vout)) :
    fetch_spend_tx (store_spend_tx txidOf s ops tx) o = none := by
  rw [store_spend_tx_eq]
  apply fetch_spend_tx_eq_none
  intro r hr hk
  rcases foldl_upserts_outpoints_sub (txidOf tx) ops _ r hr with hmem | ⟨op, hop, hk2⟩
  · rw [execStmt_insert_outpoints] at hmem
    exact hnew r hmem hk
  · exact hkeys op hop ⟨by rw [← hk2.1, hk.1], by rw [← hk2.2, hk.2]⟩

/-! Section: The ordered signature map -/

theorem lookupKey_insertSorted (k k' v : Bytes) (m : List (Bytes × Bytes)) :
    lookupKey k (insertSorted k' v m) = if k' = k then some v else lookupKey k m := by
  induction m with
  | nil => simp only [insertSorted, lookupKey]
  | cons p rest ih =>
    obtain ⟨k0, v0⟩ := p
    simp only [insertSorted]
    by_cases h1 : k' < k0
    · rw [if_pos h1]
      simp only [lookupKey]
    · rw [if_neg h1]
      by_cases h2 : k' = k0
      · subst h2
        rw [if_pos rfl]
        simp only [lookupKey]
        by_cases h3 : k' = k
        · simp [h3]
        · simp [h3]
      · rw [if_neg h2]
        simp only [lookupKey]
        rw [ih]
        by_cases h3 : k0 = k
        · have hne : ¬ k' = k := fun he => h2 (he.trans h3.symm)
          simp [h3, hne]
        · simp [h3]

theorem lookup_foldl_insert (rows : List SigRow) (k : Bytes) :
    ∀ m : List (Bytes × Bytes),
      lookupKey k (rows.foldl (fun m r => insertSorted r.pubkey r.signature m) m) =
        match (rows.filter (fun r => r.pubkey = k)).getLast? with
        | some r => some r.signature
        | none => lookupKey k m := by
  induction rows with
  | nil => intro m; rfl
  | cons r rest ih =>
    intro m
    rw [List.foldl_cons, ih]
    by_cases hp : r.pubkey = k
    · rw [List.filter_cons_of_pos (by simp [hp])]
      cases hl : rest.filter (fun r => r.pubkey = k) with
      | nil =>
        show lookupKey k (insertSorted r.pubkey r.signature m) = some r.signature
        rw [lookupKey_insertSorted, if_pos hp]
      | cons b l =>
        rw [List.getLast?_cons_cons]
        cases hg : (b :: l).getLast? with
        | some x => rfl
        | none => simp at hg
    · rw [List.filter_cons_of_neg (by simp [hp])]
      cases hg : (rest.filter (fun r => r.pubkey = k)).getLast? with
      | some r' => rfl
      | none =>
        show lookupKey k (insertSorted r.pubkey r.signature m) = lookupKey k m
        rw [lookupKey_insertSorted, if_neg hp]

theorem insertSorted_head? (k v : Bytes) (m : List (Bytes × Bytes)) :
    (insertSorted k v m).head? = some (k, v) ∨ (insertSorted k v m).head? = m.head? := by
  cases m with
  | nil => exact Or.inl rfl
  | cons p rest =>
    obtain ⟨k0, v0⟩ := p
    simp only [insertSorted]
    by_cases h1 : k < k0
    · rw [if_pos h1]; exact Or.inl rfl
    · rw [if_neg h1]
      by_cases h2 : k = k0
      · rw [if_pos h2]; exact Or.inl rfl
      · rw [if_neg h2]; exact Or.inr rfl

theorem chain_insertSorted (k v : Bytes) (m : List (Bytes × Bytes))
    (h : List.Chain' (fun a b : Bytes × Bytes => a.1 < b.1) m) :
    List.Chain' (fun a b : Bytes × Bytes => a.1 < b.1) (insertSorted k v m) := by
  induction m with
  | nil => simp [insertSorted]
  | cons p rest ih =>
    obtain ⟨k0, v0⟩ := p
    simp only [insertSorted]
    by_cases h1 : k < k0
    · rw [if_pos h1, List.chain'_cons]
      exact ⟨h1, h⟩
    · rw [if_neg h1]
      by_cases h2 : k = k0
      · rw [if_pos h2]
        rw [List.chain'_cons'] at h ⊢
        exact ⟨fun y hy => by rw [h2]; exact h.1 y hy, h.2⟩
      · rw [if_neg h2]
        have hk0k : k0 < k := lt_of_le_of_ne (le_of_not_lt h1) (fun he => h2 he.symm)
        rw [List.chain'_cons'] at h ⊢
        refine ⟨?_, ih h.2⟩
        intro y hy
        rcases insertSorted_head? k v rest with hh | hh
        · rw [hh] at hy
          rw [← Option.mem_some_iff.1 hy]
          exact hk0k
        · rw [hh] at hy
          exact h.1 y hy

theorem chain_foldl_insert (rows : List SigRow) :
    ∀ m : List (Bytes × Bytes),
      List.Chain' (fun a b : Bytes × Bytes => a.1 < b.1) m →
      List.Chain' (fun a b : Bytes × Bytes => a.1 < b.1)
        (rows.foldl (fun m r => insertSorted r.pubkey r.signature m) m) := by
  induction rows with
  | nil => intro m h; exact h
  | cons r rest ih =>
    intro m h
    rw [List.foldl_cons]
    exact ih _ (chain_insertSorted _ _ _ h)

/-! Section: the signature store -/

theorem store_sig_ok (s s' : DbState) (t p sig : Bytes)
    (h : store_sig s t p sig = .ok s') :
    s.signatures.filter (fun r => r.signature = sig) = [] ∧
    s' = { s with signatures := s.signatures ++ [⟨t, p, sig⟩] } := by
  unfold store_sig at h
  by_cases hc : (s.signatures.filter (fun r => r.signature = sig)).isEmpty
  · rw [if_pos hc] at h
    exact ⟨List.isEmpty_iff.1 hc, (Except.ok.inj h).symm⟩
  · rw [if_neg hc] at h
    cases h

theorem filter_sig_append (s : DbState) (t p sig : Bytes)
    (hfil : s.signatures.filter (fun r => r.signature = sig) = []) :
    (s.signatures ++ [(⟨t, p, sig⟩ : SigRow)]).filter (fun r => r.signature = sig)
      = [⟨t, p, sig⟩] := by
  rw [List.filter_append, hfil, List.nil_append,
    List.filter_cons_of_pos (by simp)]
  rfl

/-! Section: the claims -/

/-- C1: if `store_spend_tx (O, T)` succeeds on a well-formed store, then
`fetch_spend_tx o` returns `T` for every outpoint `o` in `O`, and returns
nothing for an outpoint not in `O` for which no spend-outpoint row was
previously stored.  `txidOf` is the transaction hash, assumed collision-free;
vouts are `u32` values. -/
theorem claim1_store_fetch_spend (txidOf : Bytes → Bytes)
    (hinj : Function.Injective txidOf) (s : DbState) (hwf : dbWf txidOf s)
    (ops : List OutPoint) (tx : Bytes) (o : OutPoint)
    (hb : ∀ op ∈ ops, op.vout < 4294967296) (hob : o.vout < 4294967296) :
    (o ∈ ops → fetch_spend_tx (store_spend_tx txidOf s ops tx) o = some tx) ∧
    (o ∉ ops → (∀ r ∈ s.spend_outpoints, ¬ rowKeyIs r o.txid (voutToI32 o.vout)) →
      fetch_spend_tx (store_spend_tx txidOf s ops tx) o = none) := by
  constructor
  · intro ho
    exact fetch_store_mem txidOf hinj s hwf ops tx o ho
  · intro ho hnew
    apply fetch_store_not_mem txidOf s ops tx o hnew
    rintro op hop ⟨h1, h2⟩
    have hv : op.vout = o.vout := (voutToI32_inj_on _ _ (hb op hop) hob).1 h2
    apply ho
    have heq : op = o := by
      cases op; cases o
      simp only at h1 hv
      rw [h1, hv]
    rw [← heq]
    exact hop

theorem claim1_witness :
    fetch_spend_tx (store_spend_tx (fun b => b) emptyDb [⟨[1], 0⟩] [7]) ⟨[1], 0⟩
      = some [7] :=
  (claim1_store_fetch_spend (fun b => b) (fun _ _ h => h) emptyDb (dbWf_empty _)
    [⟨[1], 0⟩] [7] ⟨[1], 0⟩ (by decide) (by decide)).1 (by decide)

/-- C2: after a successful `store_sig` of some signature bytes, a second
`store_sig` with the same signature bytes — under any transaction id and
public key — fails with `Duplicate` and performs no insert, and the store
holds exactly one row with those signature bytes. -/
theorem claim2_duplicate_rejected (s s' : DbState) (t1 p1 t2 p2 sig : Bytes)
    (h : store_sig s t1 p1 sig = .ok s') :
    store_sig s' t2 p2 sig = .error .Duplicate ∧
    (s'.signatures.filter (fun r => r.signature = sig)).length = 1 := by
  obtain ⟨hfil, hs⟩ := store_sig_ok s s' t1 p1 sig h
  subst hs
  have hfil2 := filter_sig_append s t1 p1 sig hfil
  constructor
  · unfold store_sig
    show (if ((s.signatures ++ [(⟨t1, p1, sig⟩ : SigRow)]).filter
        (fun r => r.signature = sig)).isEmpty then _ else _) = _
    rw [hfil2]
    rfl
  · show ((s.signatures ++ [(⟨t1, p1, sig⟩ : SigRow)]).filter
      (fun r => r.signature = sig)).length = 1
    rw [hfil2]
    rfl

theorem claim2_witness :
    store_sig { emptyDb with signatures := [⟨[1], [2], [3]⟩] } [4] [5] [3]
      = .error .Duplicate :=
  (claim2_duplicate_rejected emptyDb { emptyDb with signatures := [⟨[1], [2], [3]⟩] }
    [1] [2] [4] [5] [3] (by rfl)).1

/-- C4: `store_spend_tx` is atomic: under any failure oracle, a failed run
leaves the persisted state exactly as before the call, and a successful run
produces exactly the state of the full statement sequence — no partial state
is ever committed. -/
theorem claim4_store_spend_tx_atomic (oracle : Nat → Bool) (txidOf : Bytes → Bytes)
    (s : DbState) (ops : List OutPoint) (tx : Bytes) :
    ((runStoreTx oracle txidOf s ops tx).2 = true →
      (runStoreTx oracle txidOf s ops tx).1 = store_spend_tx txidOf s ops tx) ∧
    ((runStoreTx oracle txidOf s ops tx).2 = false →
      (runStoreTx oracle txidOf s ops tx).1 = s) := by
  unfold runStoreTx
  rcases runTx_cases oracle s (storeSpendTxStmts txidOf ops tx) 0 s with h | h
  · rw [h]
    exact ⟨fun _ => rfl, fun hf => nomatch hf⟩
  · rw [h]
    refine ⟨?_, fun _ => rfl⟩
    exact fun ht => nomatch ht

theorem claim4_witness :
    (runStoreTx (fun _ => true) (fun b => b) emptyDb [⟨[1], 0⟩] [7]).1 = emptyDb ∧
    (runStoreTx (fun _ => false) (fun b => b) emptyDb [⟨[1], 0⟩] [7]).1 =
      store_spend_tx (fun b => b) emptyDb [⟨[1], 0⟩] [7] :=
  And.intro
    ((claim4_store_spend_tx_atomic (fun _ => true) (fun b => b) emptyDb
      [OutPoint.mk [1] 0] [7]).2 (by decide))
    ((claim4_store_spend_tx_atomic (fun _ => false) (fun b => b) emptyDb
      [OutPoint.mk [1] 0] [7]).1 (by decide))

/-- C5: storing a signature triple then fetching by its transaction id yields
a mapping in which that public key is mapped to that signature. -/
theorem claim5_sig_roundtrip (s s' : DbState) (t p sig : Bytes)
    (h : store_sig s t p sig = .ok s') :
    lookupKey p (fetch_sigs s' t) = some sig := by
  obtain ⟨_, hs⟩ := store_sig_ok s s' t p sig h
  subst hs
  unfold fetch_sigs
  rw [lookup_foldl_insert]
  have htx : ({ s with signatures := s.signatures ++ [⟨t, p, sig⟩] } : DbState).signatures.filter
      (fun r => r.txid = t) = s.signatures.filter (fun r => r.txid = t) ++ [⟨t, p, sig⟩] := by
    show (s.signatures ++ [(⟨t, p, sig⟩ : SigRow)]).filter (fun r => r.txid = t) = _
    rw [List.filter_append, List.filter_cons_of_pos (by simp)]
    rfl
  rw [htx, List.filter_append, List.filter_cons_of_pos (by simp)]
  show (match ((s.signatures.filter (fun r => r.txid = t)).filter
      (fun r => r.pubkey = p) ++ [(⟨t, p, sig⟩ : SigRow)]).getLast? with
    | some r => some r.signature
    | none => lookupKey p []) = some sig
  rw [List.getLast?_concat]

theorem claim5_witness :
    lookupKey [5] (fetch_sigs { emptyDb with signatures := [⟨[1], [5], [3]⟩] } [1])
      = some [3] :=
  claim5_sig_roundtrip emptyDb { emptyDb with signatures := [⟨[1], [5], [3]⟩] }
    [1] [5] [3] (by rfl)

/-- C6: `store_spend_tx` is idempotent: repeating a successful call with the
same outpoint list and transaction is a no-op (the duplicate transaction
insert is silently skipped, each outpoint upsert rewrites its row to the value
it already has), leaving the state — hence everything fetchable — identical. -/
theorem claim6_store_spend_tx_idem (txidOf : Bytes → Bytes) (s : DbState)
    (ops : List OutPoint) (tx : Bytes) :
    store_spend_tx txidOf (store_spend_tx txidOf s ops tx) ops tx
      = store_spend_tx txidOf s ops tx := by
  have hskip : execStmt (store_spend_tx txidOf s ops tx) (.insertSpendTx (txidOf tx) tx)
      = store_spend_tx txidOf s ops tx := by
    apply insert_spend_tx_skip
    rw [store_spend_tx_eq, foldl_upserts_spend_txs]
    exact insert_spend_tx_conflict_mem s (txidOf tx) tx
  rw [store_spend_tx_eq txidOf (store_spend_tx txidOf s ops tx) ops tx, hskip]
  apply foldl_upserts_eq_of_fixed
  intro o ho
  rw [store_spend_tx_eq]
  exact foldl_upserts_fixed (txidOf tx) ops o ho _

/-- C7: a successful `store_spend_tx (O, T2)` with `o ∈ O` overwrites the
previous claim of `o` (upsert, not an error): fetching `o` now returns `T2`
and no longer `T1`, and the unique-key invariant on spend_outpoints is kept,
so a deposit outpoint is claimed by at most one spend transaction at a
time. -/
theorem claim7_overwrite (txidOf : Bytes → Bytes) (hinj : Function.Injective txidOf)
    (s : DbState) (hwf : dbWf txidOf s) (ops : List OutPoint) (tx1 tx2 : Bytes)
    (o : OutPoint) (ho : o ∈ ops) (hpre : fetch_spend_tx s o = some tx1)
    (hne : tx2 ≠ tx1) :
    fetch_spend_tx (store_spend_tx txidOf s ops tx2) o = some tx2 ∧
    fetch_spend_tx (store_spend_tx txidOf s ops tx2) o ≠ some tx1 ∧
    (store_spend_tx txidOf s ops tx2).spend_outpoints.Pairwise
      (fun a b => ¬(a.deposit_txid = b.deposit_txid ∧ a.deposit_vout = b.deposit_vout)) := by
  have hf := fetch_store_mem txidOf hinj s hwf ops tx2 o ho
  refine ⟨hf, ?_, (store_spend_tx_preserves_wf txidOf s hwf ops tx2).2.2⟩
  rw [hf]
  intro hc
  exact hne (Option.some.inj hc)

theorem claim7_witness :
    fetch_spend_tx (store_spend_tx (fun b => b)
      (store_spend_tx (fun b => b) emptyDb [⟨[9], 0⟩] [1]) [⟨[9], 0⟩] [2]) ⟨[9], 0⟩
      = some [2] :=
  (claim7_overwrite (fun b => b) (fun _ _ h => h)
    (store_spend_tx (fun b => b) emptyDb [⟨[9], 0⟩] [1]) (by decide)
    [⟨[9], 0⟩] [1] [2] ⟨[9], 0⟩ (by decide) (by decide) (by decide)).1

/-- C8: fetching an outpoint for which no spend-outpoint row exists returns
the success value `none`, not an error. -/
theorem claim8_fetch_unknown_none (s : DbState) (o : OutPoint)
    (h : ∀ r ∈ s.spend_outpoints, ¬ rowKeyIs r o.txid (voutToI32 o.vout)) :
    fetch_spend_tx s o = none :=
  fetch_spend_tx_eq_none s o h

theorem claim8_witness : fetch_spend_tx emptyDb ⟨[3], 5⟩ = none :=
  claim8_fetch_unknown_none emptyDb ⟨[3], 5⟩ (by decide)

/-- C9: `fetch_sigs` returns exactly the stored rows for the given
transaction id collapsed into a mapping keyed by public key: the keys appear
in strictly increasing natural (lexicographic) order, and each key maps to
the signature of the last-processed row with that public key. -/
theorem claim9_fetch_sigs_map (s : DbState) (t : Bytes) :
    List.Chain' (fun a b : Bytes × Bytes => a.1 < b.1) (fetch_sigs s t) ∧
    ∀ k : Bytes, lookupKey k (fetch_sigs s t) =
      ((s.signatures.filter (fun r => r.txid = t)).filter
        (fun r => r.pubkey = k)).getLast?.map (fun r => r.signature) := by
  constructor
  · unfold fetch_sigs
    exact chain_foldl_insert _ [] List.chain'_nil
  · intro k
    unfold fetch_sigs
    rw [lookup_foldl_insert]
    cases hg : ((s.signatures.filter (fun r => r.txid = t)).filter
        (fun r => r.pubkey = k)).getLast? with
    | some r => rfl
    | none => rfl

/-- C10: the stored vout column is the wrapping reinterpretation
`value mod 2^32` read as two's complement, it is injective over all `u32`
values (distinct vouts never collide), values at or above `2^31` are stored
as negative integers, and store and fetch use the same conversion, so a fetch
with such an outpoint still matches exactly the row stored for it. -/
theorem claim10_vout_cast (txidOf : Bytes → Bytes) (hinj : Function.Injective txidOf)
    (o : OutPoint) (tx : Bytes) (h1 : 2147483648 ≤ o.vout) (h2 : o.vout < 4294967296) :
    voutToI32 o.vout < 0 ∧
    (∀ w : Nat, w < 4294967296 → (voutToI32 w = voutToI32 o.vout ↔ w = o.vout)) ∧
    fetch_spend_tx (store_spend_tx txidOf emptyDb [o] tx) o = some tx := by
  refine ⟨voutToI32_neg o.vout h1 h2, ?_, ?_⟩
  · intro w hw
    exact voutToI32_inj_on w o.vout hw h2
  · exact fetch_store_mem txidOf hinj emptyDb (dbWf_empty _) [o] tx o
      (List.mem_singleton.2 rfl)

theorem claim10_witness :
    fetch_spend_tx (store_spend_tx (fun b => b) emptyDb [⟨[2], 2147483648⟩] [9])
      ⟨[2], 2147483648⟩ = some [9] :=
  (claim10_vout_cast (fun b => b) (fun _ _ h => h) ⟨[2], 2147483648⟩ [9]
    (by decide) (by decide)).2.2

/-- C3 (code-bug exhibit): `maybe_create_db` creates exactly the tables
`version`, `signatures` and `spend_txs` — idempotently and without touching
the rows of an existing table — but it never creates the `spend_outpoints`
table, even though a `store_spend_tx` statement writes to that table; the
`spend_txs` DDL also lacks the `txid` column used by the spend-transaction
insert. -/
theorem claim3_schema_missing_outpoints :
    (maybe_create_db []).map Prod.fst = ["version", "signatures", "spend_txs"] ∧
    maybe_create_db (maybe_create_db []) = maybe_create_db [] ∧
    maybe_create_db [("signatures", [[1]])]
      = [("signatures", [[1]]), ("version", []), ("spend_txs", [])] ∧
    (∀ t ∈ maybe_create_db [], t.1 ≠ "spend_outpoints") ∧
    "spend_outpoints" ∈ (storeSpendTxStmts (fun b => b) [⟨[], 0⟩] []).map Stmt.table ∧
    "txid" ∈ Stmt.columns (.insertSpendTx [] []) ∧
    "txid" ∉ schemaColumns "spend_txs" := by
  decide

end Coordinatord
